import Mathlib

/-!
Verification of the multiprocessing scalability harness (`multiarg.py`).

The embedding below translates the pure computational content of the
program's core functions into Lean:

* `getSum s e` — `getSum(start, end)`: the loop
  `tot = 0; for x in range(start, end): tot += sqrt(x)**2`, with the
  float arithmetic modelled over the reals.
* `getLimsList` / `getLims` — `getLims(nrows, nvals)`: the numpy code
  `lim_a2 = zeros((nrows, 2)); lim_a2 += arange(nrows)[:,na];
  lim_a2[:,1] += nvals`, so row `i` of the produced limit array is the
  pair `(i, i + nvals)`.  `getLims` also records the one failure mode of
  that code: `zeros((nrows, 2))` rejects a negative dimension, and no
  other validation exists, so the result is `none` exactly when
  `nrows < 0`.
* `poolTable` / `poolRun` / `runAllM` — `Pool(nprocs)` with
  `p.starmap(getSum, lim_a2)`: workers may finish in any order
  (modelled by the completion order `ks`, a permutation of the task
  indices); each completed task `k` stores its result in slot `k`, and
  the output is read off in slot order.  `Pool(nprocs)` raises for
  `nprocs < 1`, hence the `none` branch.
* `getSums` — `getSums(nrows, nvals, nprocs)`.
* `ratioOf` / `sweepPairs` / `cycleM` — the sweep in `cycle`:
  `ratio = ntot**(1/(ncyc+lcush+ucush))` and, for
  `n in range(lcush, ncyc+lcush)`, the pair
  `(round(ratio**n), round(ratio**(ncyc+lcush+ucush-n)))`.  Python's
  `round` (banker's rounding) is modelled by `pyRound`.  `cycleM`
  records the failure modes of that code: division by zero when the
  exponent span is zero, and `round` applied to a complex `ratio` when
  `ntot < 0` and the loop body runs; no other input is rejected.
* `calLoop` / `cycleCal` — the calibration step of `cycle`:
  `dt1 = get1Time(nvals); dt1 = get1Time(nvals)` per sweep point.  The
  timing oracle `t c v` gives the value returned by the `c`-th
  invocation of `get1Time` (counted from 0 across the whole sweep) with
  argument `v`; `calLoop` threads the invocation counter, performs the
  two calls per point, keeps the second result only, and also returns
  the trace of arguments passed to the successive invocations.
-/

namespace Multiarg

/-- Python's `round`: nearest integer, ties to the even integer.  Used to
model `round(ratio**n)` in `cycle`. -/
noncomputable def pyRound (x : ℝ) : ℤ :=
  if Int.fract x = 1 / 2 then (if Even ⌊x⌋ then ⌊x⌋ else ⌊x⌋ + 1) else round x

/-- Python's `range(s, e)` over the integers as a list. -/
def intRange (s e : ℤ) : List ℤ :=
  (List.range (e - s).toNat).map fun (k : ℕ) => s + (k : ℤ)

/-- The work unit `getSum(start, end)`: `tot = 0`, then
`tot += sqrt(x)**2` for each `x` in `range(start, end)`. -/
noncomputable def getSum (s e : ℤ) : ℝ :=
  (intRange s e).foldl (fun tot (x : ℤ) => tot + Real.sqrt (x : ℝ) ^ 2) 0

/-- The limit rows built by `getLims(nrows, nvals)` for a non-negative
`nrows`: row `i` is `(i, i + nvals)` (the code adds `arange(nrows)` to
both columns and then `nvals` to the second column). -/
def getLimsList (nrows : ℕ) (nvals : ℤ) : List (ℤ × ℤ) :=
  (List.range nrows).map fun i => ((i : ℤ), (i : ℤ) + nvals)

/-- `getLims(nrows, nvals)` including its one failure mode: numpy's
`zeros((nrows, 2))` rejects a negative dimension (`ValueError`), and the
function performs no other validation of its arguments. -/
def getLims (nrows nvals : ℤ) : Option (List (ℤ × ℤ)) :=
  if nrows < 0 then none else some (getLimsList nrows.toNat nvals)

end Multiarg

namespace Multiarg

/-- Claim C1 (code evaluation at the failing input): `getLims(2, 3)`
returns the rows `[0, 3]` and `[1, 4]`, not the partition rows `[0, 3]`
and `[3, 6]` the spec describes, and the two half-open ranges it does
return are not disjoint (both contain 1 and 2). -/
theorem getLims_misaligned :
    getLims 2 3 = some [(0, 3), (1, 4)] ∧
      getLims 2 3 ≠ some [(0, 3), (3, 6)] ∧
      ¬(Finset.Ico (0 : ℤ) 3 ∩ Finset.Ico (1 : ℤ) 4 = ∅) := by
  refine ⟨by decide, by decide, by decide⟩

/-- Claim C7 (counterexample): `getLims(0, 5)` does not raise; it
returns an empty plan. -/
theorem getLims_zero_rows_ok : getLims 0 5 = some [] := by decide

/-- Claim C7 (amended): `getLims` performs no argument validation.  It
fails only for a negative `nrows` (numpy rejects the negative array
dimension); `nrows = 0` yields the empty plan, and a non-positive
`nvals` is accepted as well. -/
theorem getLims_no_validation :
    ∀ r v : ℤ, (getLims r v = none ↔ r < 0) ∧ getLims 0 v = some [] := by
  intro r v
  constructor
  · unfold getLims
    by_cases h : r < 0
    · simp [h]
    · simp [h]
  · unfold getLims getLimsList
    norm_num

/-- Claim C7 (witness): the amended statement at `r = 4`, `v = 7`. -/
theorem getLims_no_validation_w :
    ((getLims 4 7 = none) ↔ (4 : ℤ) < 0) ∧ getLims 0 7 = some [] :=
  getLims_no_validation 4 7

/-- Claim C9: for non-negative bounds with `start >= end` the range is
empty and `getSum` returns the additive identity 0. -/
theorem getSum_empty_range :
    ∀ s e : ℤ, 0 ≤ e → e ≤ s → getSum s e = 0 := by
  intro s e _h0 h1
  have h : (e - s).toNat = 0 := by omega
  simp [getSum, intRange, h]

/-- Claim C9 (witness): `getSum 5 3 = 0`. -/
theorem getSum_empty_range_w : getSum 5 3 = 0 :=
  getSum_empty_range 5 3 (by decide) (by decide)

lemma foldl_add_eq (f : ℤ → ℝ) :
    ∀ (l : List ℤ) (t : ℝ), l.foldl (fun tot x => tot + f x) t = t + (l.map f).sum := by
  intro l
  induction l with
  | nil => intro t; simp
  | cons a l ih => intro t; simp [ih]; ring

lemma intRange_succ (s : ℤ) (n : ℕ) :
    intRange s (s + ((n : ℤ) + 1)) = intRange s (s + (n : ℤ)) ++ [s + (n : ℤ)] := by
  unfold intRange
  have h1 : (s + ((n : ℤ) + 1) - s).toNat = n + 1 := by omega
  have h2 : (s + (n : ℤ) - s).toNat = n := by omega
  rw [h1, h2, List.range_succ, List.map_append]
  simp

lemma Ico_succ_insert (s : ℤ) (n : ℕ) :
    Finset.Ico s (s + ((n : ℤ) + 1)) = insert (s + (n : ℤ)) (Finset.Ico s (s + (n : ℤ))) := by
  ext x
  simp only [Finset.mem_Ico, Finset.mem_insert]
  omega

lemma sum_map_intRange_aux (f : ℤ → ℝ) (s : ℤ) :
    ∀ n : ℕ, ((intRange s (s + (n : ℤ))).map f).sum = ∑ x in Finset.Ico s (s + (n : ℤ)), f x := by
  intro n
  induction n with
  | zero =>
      simp [intRange]
  | succ n ih =>
      have hcast : ((n + 1 : ℕ) : ℤ) = (n : ℤ) + 1 := by push_cast; ring
      rw [hcast, intRange_succ, Ico_succ_insert, List.map_append, List.sum_append,
        Finset.sum_insert (by simp)]
      simp [ih]
      ring

lemma sum_map_intRange (f : ℤ → ℝ) (s e : ℤ) :
    ((intRange s e).map f).sum = ∑ x in Finset.Ico s e, f x := by
  rcases le_or_lt e s with h | h
  · have h1 : (e - s).toNat = 0 := by omega
    have h2 : Finset.Ico s e = ∅ := Finset.Ico_eq_empty (by omega)
    simp [intRange, h1, h2]
  · have hn : e = s + (((e - s).toNat : ℕ) : ℤ) := by omega
    rw [hn]
    exact sum_map_intRange_aux f s (e - s).toNat

lemma intRange_mem_lower {s e x : ℤ} (hx : x ∈ intRange s e) : s ≤ x := by
  unfold intRange at hx
  obtain ⟨k, _, rfl⟩ := List.mem_map.mp hx
  omega

/-- Claim C5: `getSum` computes the sum of `sqrt(x)**2` over the
half-open range, which (over the reals) equals the sum of `x` itself;
in particular `getSum 0 5` is within the claimed tolerance of 10. -/
theorem getSum_matches_sum :
    (∀ s e : ℤ, 0 ≤ s → getSum s e = ∑ x in Finset.Ico s e, (x : ℝ)) ∧
      |getSum 0 5 - 10| ≤ 5 * (1 / 1000000) := by
  have main : ∀ s e : ℤ, 0 ≤ s → getSum s e = ∑ x in Finset.Ico s e, (x : ℝ) := by
    intro s e hs
    unfold getSum
    rw [foldl_add_eq, zero_add]
    have hmap : (intRange s e).map (fun (x : ℤ) => Real.sqrt (x : ℝ) ^ 2)
        = (intRange s e).map (fun (x : ℤ) => (x : ℝ)) := by
      apply List.map_congr_left
      intro x hx
      have hx0 : (0 : ℝ) ≤ (x : ℝ) := by
        have := intRange_mem_lower hx
        exact_mod_cast le_trans hs this
      exact Real.sq_sqrt hx0
    rw [hmap, sum_map_intRange]
  refine ⟨main, ?_⟩
  have h5 : getSum 0 5 = 10 := by
    rw [main 0 5 le_rfl]
    have : Finset.Ico (0 : ℤ) 5 = {0, 1, 2, 3, 4} := by decide
    rw [this]
    norm_num [Finset.sum_insert, Finset.mem_insert]
  rw [h5]
  norm_num

/-- Claim C5 (witness): the general identity at `s = 2`, `e = 4`. -/
theorem getSum_matches_sum_w :
    getSum 2 4 = ∑ x in Finset.Ico (2 : ℤ) 4, (x : ℝ) :=
  getSum_matches_sum.1 2 4 (by decide)

/-- Result slots of a pool dispatch: the workers complete the tasks in
the order listed by `ks`; a completed task `k` stores `g k` in slot `k`.
Slots start at the junk value `d`. -/
def poolTable {α : Type} (g : ℕ → α) (d : α) (ks : List ℕ) : ℕ → α :=
  ks.foldl (fun r k => Function.update r k (g k)) fun _ => d

/-- The ordered result sequence `starmap` hands back: slot `i` of the
completed table, read off for `i = 0, ..., n-1` in input order. -/
def poolRun {α : Type} (g : ℕ → α) (d : α) (n : ℕ) (ks : List ℕ) : List α :=
  (List.range n).map (poolTable g d ks)

/-- The parallel dispatch inside `getSums`: `with Pool(nprocs) as p:
sum_list = p.starmap(getSum, lim_a2)`.  `Pool` rejects a worker count
below 1; the completion order of the workers is `ks`. -/
noncomputable def runAllM (nprocs : ℤ) (plan : List (ℤ × ℤ)) (ks : List ℕ) :
    Option (List ℝ) :=
  if nprocs < 1 then none
  else some (poolRun (fun i => getSum (plan.getD i (0, 0)).1 (plan.getD i (0, 0)).2)
    0 plan.length ks)

/-- Sequential reference execution of a plan (spec side of the
refinement claim): the work unit applied to each range in plan order. -/
noncomputable def seqSums (plan : List (ℤ × ℤ)) : List ℝ :=
  plan.map fun p => getSum p.1 p.2

/-- `getSums(nrows, nvals, nprocs)`: build the limits, dispatch them on
a pool of `nprocs` workers completing in order `ks`. -/
noncomputable def getSums (nrows : ℕ) (nvals : ℤ) (nprocs : ℤ) (ks : List ℕ) :
    Option (List ℝ) :=
  runAllM nprocs (getLimsList nrows nvals) ks

lemma foldl_update_eval {α : Type} (g : ℕ → α) :
    ∀ (ks : List ℕ) (r : ℕ → α) (i : ℕ),
      (ks.foldl (fun r k => Function.update r k (g k)) r) i = if i ∈ ks then g i else r i := by
  intro ks
  induction ks with
  | nil => intro r i; simp
  | cons k ks ih =>
      intro r i
      rw [List.foldl_cons, ih]
      by_cases h : i ∈ ks
      · simp [h]
      · by_cases hk : i = k
        · subst hk; simp [h, Function.update_apply]
        · simp [h, hk, Function.update_apply]

lemma poolRun_of_perm {α : Type} (g : ℕ → α) (d : α) (n : ℕ) (ks : List ℕ)
    (h : ks.Perm (List.range n)) : poolRun g d n ks = (List.range n).map g := by
  unfold poolRun poolTable
  apply List.map_congr_left
  intro i hi
  rw [foldl_update_eval, if_pos (h.mem_iff.mpr hi)]

lemma range_map_getD {α β : Type} (f : α → β) (d : α) :
    ∀ l : List α, (List.range l.length).map (fun i => f (l.getD i d)) = l.map f := by
  intro l
  induction l with
  | nil => simp
  | cons a l ih =>
      rw [List.length_cons, List.range_succ_eq_map]
      simp only [List.map_cons, List.getD_cons_zero, List.map_map]
      rw [show ((fun i => f ((a :: l).getD i d)) ∘ Nat.succ) = fun i => f (l.getD i d) from
        funext fun i => by simp]
      rw [ih]

lemma runAllM_eq (nprocs : ℤ) (plan : List (ℤ × ℤ)) (ks : List ℕ)
    (h1 : 1 ≤ nprocs) (h2 : ks.Perm (List.range plan.length)) :
    runAllM nprocs plan ks = some (seqSums plan) := by
  unfold runAllM
  rw [if_neg (by omega : ¬nprocs < 1), poolRun_of_perm _ _ _ _ h2]
  have := range_map_getD (fun p : ℤ × ℤ => getSum p.1 p.2) (0, 0) plan
  unfold seqSums
  exact congrArg some this

/-- Claim C4: for every plan and positive worker count, the pool
dispatch returns one result per range, in plan order, and the result
sequence equals sequential execution of the same plan, whatever the
completion order of the workers. -/
theorem runAll_order_preserved :
    ∀ (plan : List (ℤ × ℤ)) (nprocs : ℤ) (ks : List ℕ),
      1 ≤ nprocs → ks.Perm (List.range plan.length) →
      runAllM nprocs plan ks = some (seqSums plan) ∧ (seqSums plan).length = plan.length :=
  fun plan nprocs ks h1 h2 => ⟨runAllM_eq nprocs plan ks h1 h2, by simp [seqSums]⟩

/-- Claim C4 (witness): a two-range plan on two workers whose second
range completes first. -/
theorem runAll_order_preserved_w :
    runAllM 2 [((0 : ℤ), (3 : ℤ)), (1, 4)] [1, 0]
        = some (seqSums [((0 : ℤ), (3 : ℤ)), (1, 4)]) ∧
      (seqSums [((0 : ℤ), (3 : ℤ)), (1, 4)]).length = [((0 : ℤ), (3 : ℤ)), (1, 4)].length :=
  runAll_order_preserved [(0, 3), (1, 4)] 2 [1, 0] (by decide) (by decide)

/-- Claim C10: the numeric output of `getSums` does not depend on the
worker count (nor on the completion order): any two positive pool sizes
give the same result sequence. -/
theorem getSums_nprocs_independent :
    ∀ (nrows : ℕ) (nvals : ℤ) (p q : ℤ) (ks ls : List ℕ),
      0 < nrows → 0 < nvals → 1 ≤ p → 1 ≤ q →
      ks.Perm (List.range (getLimsList nrows nvals).length) →
      ls.Perm (List.range (getLimsList nrows nvals).length) →
      getSums nrows nvals p ks = getSums nrows nvals q ls := by
  intro nrows nvals p q ks ls _ _ hp hq hks hls
  unfold getSums
  rw [runAllM_eq p _ ks hp hks, runAllM_eq q _ ls hq hls]

/-- Claim C10 (witness): two rows of three values on pools of 1 and 4
workers, opposite completion orders. -/
theorem getSums_nprocs_independent_w :
    getSums 2 3 1 [0, 1] = getSums 2 3 4 [1, 0] :=
  getSums_nprocs_independent 2 3 1 4 [0, 1] [1, 0] (by decide) (by decide)
    (by decide) (by decide) (by decide) (by decide)

/-- The growth factor of `cycle`: `ratio = ntot**(1/(ncyc+lcush+ucush))`. -/
noncomputable def ratioOf (ncyc lcush ucush : ℕ) (ntot : ℝ) : ℝ :=
  ntot ^ ((1 : ℝ) / ((ncyc : ℝ) + (lcush : ℝ) + (ucush : ℝ)))

/-- The `(nrows, nvals)` pairs computed by the loop of `cycle`:
`for n in range(lcush, ncyc+lcush): nrows = round(ratio**n);
nvals = round(ratio**(ncyc+lcush+ucush-n))`. -/
noncomputable def sweepPairs (ncyc lcush ucush : ℕ) (ntot : ℝ) : List (ℤ × ℤ) :=
  (List.range' lcush ncyc).map fun n =>
    (pyRound (ratioOf ncyc lcush ucush ntot ^ n),
      pyRound (ratioOf ncyc lcush ucush ntot ^ (ncyc + lcush + ucush - n)))

/-- `cycle(ncyc, lcush, ucush, ntot, ...)` including its failure modes:
`1/(ncyc+lcush+ucush)` raises `ZeroDivisionError` when the exponent span
is zero, and a negative `ntot` makes `ratio` complex so `round(ratio**n)`
raises in the first loop iteration (when the loop body runs at all).  No
other input is rejected; the result keeps the `(nrows, nvals)` pairs the
loop steps through (the measured times are real-world effects, modelled
separately by `cycleCal`). -/
noncomputable def cycleM (ncyc lcush ucush : ℕ) (ntot : ℝ) : Option (List (ℤ × ℤ)) :=
  if ncyc + lcush + ucush = 0 then none
  else if ntot < 0 ∧ 0 < ncyc then none
  else some (sweepPairs ncyc lcush ucush ntot)

lemma map_range'_getD {α : Type} (f : ℕ → α) (d : α) :
    ∀ (n s i : ℕ), i < n → ((List.range' s n).map f).getD i d = f (s + i) := by
  intro n
  induction n with
  | zero => intro s i h; omega
  | succ n ih =>
      intro s i h
      rw [List.range'_succ]
      cases i with
      | zero => simp
      | succ i =>
          simp only [List.map_cons, List.getD_cons_succ]
          rw [ih (s + 1) i (by omega)]
          congr 1
          omega

/-- Claim C2: the sweep report has exactly `ncyc` points, and point `i`
(for the exponent `n = lcush + i`) carries
`nrows = round(ratio**n)` and `nvals = round(ratio**(span - n))`. -/
theorem cycle_points_formula :
    ∀ (ncyc lcush ucush : ℕ) (ntot : ℝ),
      (sweepPairs ncyc lcush ucush ntot).length = ncyc ∧
      ∀ i : Fin ncyc,
        (sweepPairs ncyc lcush ucush ntot).getD i (0, 0) =
          (pyRound (ratioOf ncyc lcush ucush ntot ^ (lcush + i.val)),
            pyRound (ratioOf ncyc lcush ucush ntot ^ (ncyc + lcush + ucush - (lcush + i.val)))) := by
  intro ncyc lcush ucush ntot
  constructor
  · simp [sweepPairs]
  · intro i
    unfold sweepPairs
    rw [map_range'_getD _ _ ncyc lcush i.val i.isLt]

/-- Claim C2 (witness): the point count at a small concrete sweep. -/
theorem cycle_points_formula_w :
    (sweepPairs 1 0 0 (16 : ℝ)).length = 1 ∧
      (sweepPairs 1 0 0 (16 : ℝ)).getD 0 (0, 0) =
        (pyRound (ratioOf 1 0 0 16 ^ (0 + (0 : ℕ))),
          pyRound (ratioOf 1 0 0 16 ^ (1 + 0 + 0 - (0 + (0 : ℕ))))) :=
  ⟨(cycle_points_formula 1 0 0 16).1, (cycle_points_formula 1 0 0 16).2 0⟩

/-- Claim C8 (counterexample): `cycle` with `ncyc = 0` (and the default
cushions and a positive total) does not raise; it returns an empty
report. -/
theorem cycle_zero_samples_ok : cycleM 0 2 5 (10000 : ℝ) = some [] := by
  unfold cycleM sweepPairs
  norm_num

/-- Claim C8 (amended): `cycle` performs no `InvalidArgument`
validation.  For a non-negative total, it fails exactly when the
exponent span `ncyc + lcush + ucush` is zero (a `ZeroDivisionError` in
the ratio computation, not an argument check); in particular
`sample_count = 0` with a nonzero span yields an empty report rather
than an error, and `total_work = 0` is accepted. -/
theorem cycle_no_validation :
    ∀ (ncyc lcush ucush : ℕ) (ntot : ℝ), 0 ≤ ntot →
      (cycleM ncyc lcush ucush ntot = none ↔ ncyc + lcush + ucush = 0) := by
  intro ncyc lcush ucush ntot hn
  unfold cycleM
  by_cases h : ncyc + lcush + ucush = 0
  · simp [h]
  · have h2 : ¬(ntot < 0 ∧ 0 < ncyc) := by
      rintro ⟨hlt, _⟩
      linarith
    simp [h, h2]

/-- Claim C8 (witness): the amended statement at a nonzero span. -/
theorem cycle_no_validation_w :
    cycleM 3 0 0 (1000 : ℝ) = none ↔ 3 + 0 + 0 = 0 :=
  cycle_no_validation 3 0 0 1000 (by norm_num)

/-- The calibration loop of `cycle`, one sweep point per entry of `vs`
(the `nvals` of that point): `dt1 = get1Time(nvals);
dt1 = get1Time(nvals)` — the first invocation is performed and its
result discarded, the rebinding keeps the second only.  `t c v` is the
time measured by the `c`-th `get1Time` invocation of the sweep with
argument `v`; the second component is the trace of arguments passed to
the successive invocations. -/
def calLoop (t : ℕ → ℤ → ℝ) : List ℤ → ℕ → List ℝ × List ℤ
  | [], _ => ([], [])
  | v :: vs, c =>
      let _discarded := t c v
      (t (c + 1) v :: (calLoop t vs (c + 2)).1, v :: v :: (calLoop t vs (c + 2)).2)

/-- The calibration measurements of a whole sweep: the loop run over the
`nvals` column of the sweep's points, starting at invocation 0. -/
noncomputable def cycleCal (t : ℕ → ℤ → ℝ) (ncyc lcush ucush : ℕ) (ntot : ℝ) :
    List ℝ × List ℤ :=
  calLoop t ((sweepPairs ncyc lcush ucush ntot).map Prod.snd) 0

lemma calLoop_trace (t : ℕ → ℤ → ℝ) :
    ∀ (vs : List ℤ) (c : ℕ), (calLoop t vs c).2 = vs.flatMap fun v => [v, v] := by
  intro vs
  induction vs with
  | nil => intro c; simp [calLoop]
  | cons v vs ih => intro c; simp [calLoop, ih]

lemma calLoop_length (t : ℕ → ℤ → ℝ) :
    ∀ (vs : List ℤ) (c : ℕ), (calLoop t vs c).1.length = vs.length := by
  intro vs
  induction vs with
  | nil => intro c; simp [calLoop]
  | cons v vs ih => intro c; simp [calLoop, ih]

lemma calLoop_getD (t : ℕ → ℤ → ℝ) :
    ∀ (vs : List ℤ) (c i : ℕ), i < vs.length →
      (calLoop t vs c).1.getD i 0 = t (c + 2 * i + 1) (vs.getD i 0) := by
  intro vs
  induction vs with
  | nil => intro c i h; simp at h
  | cons v vs ih =>
      intro c i h
      cases i with
      | zero => simp [calLoop]
      | succ i =>
          simp only [calLoop, List.getD_cons_succ]
          rw [ih (c + 2) i (by simpa using h)]
          congr 1
          omega

/-- Claim C3: per sweep point the calibration is invoked exactly twice
with that point's `nvals` (the trace lists each `nvals` twice, in
order), and the recorded baseline of point `i` is the result of the
second of its two invocations (global invocation index `2*i + 1`) —
the first is discarded. -/
theorem cycle_calibration :
    ∀ (t : ℕ → ℤ → ℝ) (ncyc lcush ucush : ℕ) (ntot : ℝ),
      (cycleCal t ncyc lcush ucush ntot).2 =
        ((sweepPairs ncyc lcush ucush ntot).map Prod.snd).flatMap (fun v => [v, v]) ∧
      (cycleCal t ncyc lcush ucush ntot).1.length = ncyc ∧
      ∀ i : Fin ncyc,
        (cycleCal t ncyc lcush ucush ntot).1.getD i 0 =
          t (2 * i.val + 1) (((sweepPairs ncyc lcush ucush ntot).map Prod.snd).getD i.val 0) := by
  intro t ncyc lcush ucush ntot
  have hlen : ((sweepPairs ncyc lcush ucush ntot).map Prod.snd).length = ncyc := by
    simp [sweepPairs]
  refine ⟨calLoop_trace t _ 0, ?_, ?_⟩
  · rw [cycleCal, calLoop_length, hlen]
  · intro i
    rw [cycleCal, calLoop_getD t _ 0 i.val (by rw [hlen]; exact i.isLt)]
    norm_num

/-- Claim C3 (witness): a two-point sweep under the zero timing
oracle. -/
theorem cycle_calibration_w :
    (cycleCal (fun _ _ => (0 : ℝ)) 2 1 1 (16 : ℝ)).1.length = 2 :=
  (cycle_calibration (fun _ _ => (0 : ℝ)) 2 1 1 16).2.1

lemma pyRound_eq_of_between (k : ℤ) (x : ℝ)
    (h1 : (k : ℝ) - 1 / 2 < x) (h2 : x < (k : ℝ) + 1 / 2) : pyRound x = k := by
  have hfr : Int.fract x ≠ 1 / 2 := by
    intro h
    have hx : x = (⌊x⌋ : ℝ) + 1 / 2 := by
      have hd : x - (⌊x⌋ : ℝ) = 1 / 2 := by
        rw [Int.self_sub_floor]
        exact h
      linarith
    have hk1 : (k : ℝ) < (⌊x⌋ : ℝ) + 1 := by linarith
    have hk2 : (⌊x⌋ : ℝ) < (k : ℝ) := by linarith
    have hk1' : k < ⌊x⌋ + 1 := by exact_mod_cast hk1
    have hk2' : ⌊x⌋ < k := by exact_mod_cast hk2
    omega
  unfold pyRound
  rw [if_neg hfr, round_eq]
  apply Int.floor_eq_iff.mpr
  constructor
  · linarith
  · linarith

lemma rpow_div7_pow (m : ℕ) :
    ((1000 : ℝ) ^ ((m : ℝ) / 7)) ^ (7 : ℕ) = (1000 : ℝ) ^ (m : ℕ) := by
  rw [← Real.rpow_natCast ((1000 : ℝ) ^ ((m : ℝ) / 7)) 7,
    ← Real.rpow_mul (by norm_num : (0 : ℝ) ≤ 1000)]
  rw [show (m : ℝ) / 7 * (7 : ℕ) = (m : ℝ) by ring]
  rw [Real.rpow_natCast]

lemma rpow_div7_bounds (m : ℕ) (a b : ℝ) (_ha : 0 ≤ a) (hb : 0 ≤ b)
    (h1 : a ^ (7 : ℕ) < (1000 : ℝ) ^ (m : ℕ)) (h2 : (1000 : ℝ) ^ (m : ℕ) < b ^ (7 : ℕ)) :
    a < (1000 : ℝ) ^ ((m : ℝ) / 7) ∧ (1000 : ℝ) ^ ((m : ℝ) / 7) < b := by
  have hx0 : (0 : ℝ) ≤ (1000 : ℝ) ^ ((m : ℝ) / 7) := Real.rpow_nonneg (by norm_num) _
  have hx7 := rpow_div7_pow m
  constructor
  · by_contra hcon
    push_neg at hcon
    have := pow_le_pow_left₀ hx0 hcon 7
    rw [hx7] at this
    linarith
  · by_contra hcon
    push_neg at hcon
    have := pow_le_pow_left₀ hb hcon 7
    rw [hx7] at this
    linarith

lemma pyRound_rpow_div7 (m : ℕ) (k : ℤ)
    (h0 : (0 : ℝ) ≤ (k : ℝ) - 1 / 2)
    (h1 : ((k : ℝ) - 1 / 2) ^ (7 : ℕ) < (1000 : ℝ) ^ (m : ℕ))
    (h2 : (1000 : ℝ) ^ (m : ℕ) < ((k : ℝ) + 1 / 2) ^ (7 : ℕ)) :
    pyRound ((1000 : ℝ) ^ ((m : ℝ) / 7)) = k := by
  obtain ⟨hl, hr⟩ := rpow_div7_bounds m _ _ h0 (by linarith) h1 h2
  exact pyRound_eq_of_between k _ hl hr

lemma ratioOf_pow_1000 (n : ℕ) :
    ratioOf 3 2 2 1000 ^ n = (1000 : ℝ) ^ ((n : ℝ) / 7) := by
  have hr : ratioOf 3 2 2 1000 = (1000 : ℝ) ^ ((1 : ℝ) / 7) := by
    unfold ratioOf
    norm_num
  rw [hr, ← Real.rpow_natCast ((1000 : ℝ) ^ ((1 : ℝ) / 7)) n,
    ← Real.rpow_mul (by norm_num : (0 : ℝ) ≤ 1000)]
  congr 1
  ring

lemma sweepPairs_3_2_2_1000 :
    sweepPairs 3 2 2 1000 = [(7, 139), (19, 52), (52, 19)] := by
  have p2 : pyRound (ratioOf 3 2 2 1000 ^ (2 : ℕ)) = 7 := by
    rw [ratioOf_pow_1000]
    exact pyRound_rpow_div7 2 7 (by norm_num) (by norm_num) (by norm_num)
  have p3 : pyRound (ratioOf 3 2 2 1000 ^ (3 : ℕ)) = 19 := by
    rw [ratioOf_pow_1000]
    exact pyRound_rpow_div7 3 19 (by norm_num) (by norm_num) (by norm_num)
  have p4 : pyRound (ratioOf 3 2 2 1000 ^ (4 : ℕ)) = 52 := by
    rw [ratioOf_pow_1000]
    exact pyRound_rpow_div7 4 52 (by norm_num) (by norm_num) (by norm_num)
  have p5 : pyRound (ratioOf 3 2 2 1000 ^ (5 : ℕ)) = 139 := by
    rw [ratioOf_pow_1000]
    exact pyRound_rpow_div7 5 139 (by norm_num) (by norm_num) (by norm_num)
  unfold sweepPairs
  rw [show List.range' 2 3 = [2, 3, 4] from rfl]
  simp only [List.map_cons, List.map_nil]
  rw [show (3 + 2 + 2 - 2 : ℕ) = 5 from rfl, show (3 + 2 + 2 - 3 : ℕ) = 4 from rfl,
    show (3 + 2 + 2 - 4 : ℕ) = 3 from rfl, p2, p3, p4, p5]

/-- Claim C6: the sweep with `sample_count = 3`, margins 2 and 2 and
`total_work = 1000` emits exactly 3 points, and every emitted
`(nrows, nvals)` pair keeps `nrows * nvals` within 50% of the total
work. -/
theorem cycle_constant_work :
    (sweepPairs 3 2 2 1000).length = 3 ∧
      ((sweepPairs 3 2 2 1000).all fun p =>
        decide (2 * |p.1 * p.2 - 1000| < 1000)) = true := by
  rw [sweepPairs_3_2_2_1000]
  exact ⟨rfl, by decide⟩

end Multiarg
